import Mathlib

/-!
Verification of the bulk image resizer plugin (src/main.py) against its
natural-language specification.  The plugin's core is embedded shallowly:
bytes are lists of naturals, file names are lists of characters, the book
container is an association list from names to fallible byte contents, the
external transcoder is an oracle parameter returning an exceptional value on
failure, and the timer-driven batch runner is a step function iterated over
an explicit cancellation stream.
-/

namespace BulkImg

/-- A byte string (Python bytes), one natural number per byte. -/
abbrev Bytes := List Nat

/-- A file name inside the book container. -/
abbrev FName := List Char

/-- Python bytes.startswith: does the second list start with the first? -/
def starts_with : Bytes → Bytes → Bool
  | [], _ => true
  | _ :: _, [] => false
  | a :: ps, b :: ds => a == b && starts_with ps ds

/-- JPEG start-of-image marker FF D8 FF. -/
def jpegSig : Bytes := [0xff, 0xd8, 0xff]

/-- The 8-byte PNG signature 89 50 4E 47 0D 0A 1A 0A. -/
def pngSig : Bytes := [0x89, 0x50, 0x4e, 0x47, 0x0d, 0x0a, 0x1a, 0x0a]

/-- ASCII GIF87a. -/
def gif87Sig : Bytes := [0x47, 0x49, 0x46, 0x38, 0x37, 0x61]

/-- ASCII GIF89a. -/
def gif89Sig : Bytes := [0x47, 0x49, 0x46, 0x38, 0x39, 0x61]

/-- ASCII RIFF. -/
def riffSig : Bytes := [0x52, 0x49, 0x46, 0x46]

/-- ASCII WEBP. -/
def webpTag : Bytes := [0x57, 0x45, 0x42, 0x50]

/-- Embedding of get_image_type (src/main.py lines 21-33): magic-byte
sniffing on the first bytes of a file. -/
def get_image_type (data : Bytes) : Option String :=
  if data.length < 12 then none
  else if starts_with jpegSig data then some "jpeg"
  else if starts_with pngSig data then some "png"
  else if starts_with gif87Sig data || starts_with gif89Sig data then some "gif"
  else if starts_with riffSig data && (data.drop 8).take 4 == webpTag then some "webp"
  else none

/-- Index of the last occurrence of a character, or -1 when absent
(Python str.rfind, used by os.path.splitext). -/
def rfind (p : List Char) (c : Char) : Int :=
  match p with
  | [] => -1
  | a :: rest =>
    let r := rfind rest c
    if 0 ≤ r then r + 1 else if a = c then 0 else -1

/-- Embedding of os.path.splitext (posixpath): split off the extension at the
last dot after the last slash, unless every character of the final component
before that dot is itself a dot (hidden-file rule). -/
def splitext (p : List Char) : List Char × List Char :=
  let sepIndex := rfind p '/'
  let dotIndex := rfind p '.'
  if sepIndex < dotIndex then
    if ((p.drop (sepIndex + 1).toNat).take (dotIndex - sepIndex - 1).toNat).any
        (fun ch => ch != '.') then
      (p.take dotIndex.toNat, p.drop dotIndex.toNat)
    else (p, [])
  else (p, [])

/-- Embedding of replace_extension (src/main.py lines 36-38). -/
def replace_extension (file_name : FName) (new_extension : FName) : FName :=
  (splitext file_name).1 ++ new_extension

/-- The book container: an association list from file names to contents.
A content of the form Except.error models a file whose open/read raises. -/
abbrev Container := List (FName × Except String Bytes)

/-- Reading the raw bytes of a name (container.open / container.raw_data). -/
def lookupRaw : Container → FName → Option (Except String Bytes)
  | [], _ => none
  | (m, b) :: rest, n => if m = n then some b else lookupRaw rest n

/-- container.replace(name, data): swap the content stored under a name. -/
def replaceFile : Container → FName → Bytes → Container
  | [], _, _ => []
  | (k, v) :: rest, n, b =>
    (if k = n then (n, Except.ok b) else (k, v)) :: replaceFile rest n b

/-- Embedding of BulkImgReducer.get_images_from_collection (src/main.py lines
92-103): iterate the container, read the first 12 bytes of each entry, keep
the names recognized by get_image_type; entries whose read raises are
silently skipped. -/
def get_images_from_collection : Container → List FName
  | [] => []
  | (_, Except.error _) :: rest => get_images_from_collection rest
  | (n, Except.ok b) :: rest =>
    (if (get_image_type (b.take 12)).isSome then [n] else []) ++
      get_images_from_collection rest

/-- Lookup in a rename map (association list). -/
def map_lookup : List (FName × FName) → FName → Option FName
  | [], _ => none
  | (k, v) :: rest, n => if k = n then some v else map_lookup rest n

/-- Modelled from the spec: rename_files is the calibre host utility invoked
by do_end; the spec describes it as one atomic bulk rename where every file
whose name is a key of the map receives the mapped name, and no file content
changes.  Its source is not part of this repository. -/
def rename_files (c : Container) (m : List (FName × FName)) : Container :=
  c.map fun p => ((map_lookup m p.1).getD p.1, p.2)

/-- Embedding of the rename-map construction in BulkImgReducer.do_end
(src/main.py lines 140-153): for each name compute the extension implied by
the target encoding, skip identity entries; an unrecognized encoding breaks
out of the loop immediately. -/
def build_replace_map (encoding_type : String) : List FName → List (FName × FName)
  | [] => []
  | name :: rest =>
    if encoding_type = "WebP" then
      let value := replace_extension name ".webp".toList
      (if name = value then [] else [(name, value)]) ++
        build_replace_map encoding_type rest
    else if encoding_type = "JPEG" then
      let value := replace_extension name ".jpg".toList
      (if name = value then [] else [(name, value)]) ++
        build_replace_map encoding_type rest
    else if encoding_type = "PNG" then
      let value := replace_extension name ".png".toList
      (if name = value then [] else [(name, value)]) ++
        build_replace_map encoding_type rest
    else []

/-- The extension implied by a target encoding in do_end's if-chain, or none
for an unrecognized encoding. -/
def encExt (encoding_type : String) : Option FName :=
  if encoding_type = "WebP" then some ".webp".toList
  else if encoding_type = "JPEG" then some ".jpg".toList
  else if encoding_type = "PNG" then some ".png".toList
  else none

instance {α β : Type} [DecidableEq α] [DecidableEq β] : DecidableEq (Except α β) := fun a b =>
  match a, b with
  | Except.ok x, Except.ok y =>
    if h : x = y then isTrue (by rw [h]) else isFalse (by intro hh; cases hh; exact h rfl)
  | Except.error x, Except.error y =>
    if h : x = y then isTrue (by rw [h]) else isFalse (by intro hh; cases hh; exact h rfl)
  | Except.ok _, Except.error _ => isFalse (by intro hh; cases hh)
  | Except.error _, Except.ok _ => isFalse (by intro hh; cases hh)

/-- The job state of one batch run: job_data = (images, all_images, progress,
container) together with the reported per-image failures (warning dialogs,
each carrying the failing name and a diagnostic detail) and whether the timer
has been stopped by do_end. -/
structure JobState where
  images : List FName
  all_images : List FName
  progressValue : Nat
  progressMax : Nat
  container : Container
  failures : List (FName × String)
  finished : Bool
  deriving DecidableEq

/-- The job state created by mimify_images when at least one image is found:
pending = detected images, all_images = a copy, progress dialog bounded by
count + 1 starting at 0. -/
def initJob (images : List FName) (c : Container) : JobState :=
  { images := images
    all_images := images
    progressValue := 0
    progressMax := images.length + 1
    container := c
    failures := []
    finished := false }

/-- Embedding of BulkImgReducer.mimify_images (src/main.py lines 77-90):
scan the container; with zero images abort with the message text, otherwise
create the job state. -/
def mimify_images (c : Container) : Except String JobState :=
  let images := get_images_from_collection c
  if images.length == 0 then Except.error "No images found!"
  else Except.ok (initJob images c)

/-- One transcode-and-replace attempt on a single name (the try block of
do_one): read raw bytes (a missing name raises KeyError), transcode through
the external compress oracle, write back; any failure is converted into a
reported (name, detail) pair and leaves the container untouched. -/
def step_one (compress : Bytes → Except String Bytes) (c : Container)
    (name : FName) : Container × Option (FName × String) :=
  match lookupRaw c name with
  | none => (c, some (name, "KeyError"))
  | some (Except.error e) => (c, some (name, e))
  | some (Except.ok b) =>
    match compress b with
    | Except.error e => (c, some (name, e))
    | Except.ok nb => (replaceFile c name nb, none)

/-- Embedding of BulkImgReducer.do_end (src/main.py lines 135-159): build the
rename map from all_images, hand it to rename_files in one bulk operation,
and advance progress to count(all) + 1.  Setting finished models stopping
the timer. -/
def do_end (encoding_type : String) (s : JobState) : JobState :=
  let replace_map := build_replace_map encoding_type s.all_images
  { s with container := rename_files s.container replace_map
           progressValue := s.all_images.length + 1
           finished := true }

/-- Embedding of BulkImgReducer.do_one (src/main.py lines 113-133): one timer
tick.  If pending is empty or the cancel signal is observed, stop the timer
and finalize; otherwise pop the last pending name, attempt
transcode-and-replace (failures are reported, never re-raised), and advance
progress to count(all) - count(pending). -/
def do_one (encoding_type : String) (compress : Bytes → Except String Bytes)
    (cancelled : Bool) (s : JobState) : JobState :=
  if s.images.length == 0 || cancelled then do_end encoding_type s
  else
    match s.images.getLast? with
    | none => s
    | some name =>
      let rest := s.images.dropLast
      let r := step_one compress s.container name
      { s with images := rest
               container := r.1
               failures := s.failures ++ r.2.toList
               progressValue := s.all_images.length - rest.length }

/-- The recurring timer: iterate do_one for t ticks, reading tick i's
cancellation flag from the stream; once do_end has stopped the timer no
further tick runs. -/
def run_from (encoding_type : String) (compress : Bytes → Except String Bytes)
    (cancel : Nat → Bool) (s : JobState) : Nat → JobState
  | 0 => s
  | t + 1 =>
    let s' := run_from encoding_type compress cancel s t
    if s'.finished then s' else do_one encoding_type compress (cancel t) s'

/-- Sequential transcode-and-replace over a list of names (the cumulative
effect of the popping steps), returning the final container and the reported
failures in order. -/
def process_list (compress : Bytes → Except String Bytes) (c : Container) :
    List FName → Container × List (FName × String)
  | [] => (c, [])
  | n :: rest =>
    let r := step_one compress c n
    let rec0 := process_list compress r.1 rest
    (rec0.1, r.2.toList ++ rec0.2)

/-- Whether (and how) a single image fails when attempted against a given
container: the reported (name, detail) pair, or none on success. -/
def failDetail (compress : Bytes → Except String Bytes) (c : Container)
    (n : FName) : Option (FName × String) :=
  (step_one compress c n).2

/-- The names already popped from pending (pending is always a front segment
of all_images, so the popped ones are the remaining suffix). -/
def processed_so_far (s : JobState) : List FName :=
  s.all_images.drop s.images.length

/-! ### Lemmas about the image type detector -/

lemma starts_with_iff (p d : Bytes) : starts_with p d = true ↔ p <+: d := by
  induction p generalizing d with
  | nil => simp [starts_with]
  | cons a ps ih =>
    cases d with
    | nil => simp [starts_with]
    | cons b ds => simp [starts_with, ih]

lemma sw_eq_false_of_not {p d : Bytes} (h : ¬ p <+: d) : starts_with p d = false := by
  cases hsw : starts_with p d with
  | false => rfl
  | true => exact absurd ((starts_with_iff p d).mp hsw) h

lemma sw_excl {p q : Bytes} (d : Bytes) (hpq : starts_with p q = false)
    (hqp : starts_with q p = false) (hp : starts_with p d = true) :
    starts_with q d = false := by
  cases hq : starts_with q d with
  | false => rfl
  | true =>
    exfalso
    have hp' := (starts_with_iff p d).mp hp
    have hq' := (starts_with_iff q d).mp hq
    rcases Nat.le_total p.length q.length with h | h
    · have h1 : starts_with p q = true :=
        (starts_with_iff p q).mpr (List.prefix_of_prefix_length_le hp' hq' h)
      rw [h1] at hpq; exact Bool.noConfusion hpq
    · have h1 : starts_with q p = true :=
        (starts_with_iff q p).mpr (List.prefix_of_prefix_length_le hq' hp' h)
      rw [h1] at hqp; exact Bool.noConfusion hqp

/-- Claim C3: for every byte string shorter than 12 bytes the detector
returns none; for every byte string of length at least 12 it returns jpeg on
the FF D8 FF marker, png on the 8-byte PNG signature, gif on a GIF87a or
GIF89a prefix, webp on RIFF at offset 0 plus WEBP at offsets 8..11
(arbitrary trailing payload in all cases), and none for every other byte
string. -/
theorem image_type_detector_contract (data : Bytes) :
    (data.length < 12 → get_image_type data = none) ∧
    (12 ≤ data.length →
      (jpegSig <+: data → get_image_type data = some "jpeg") ∧
      (pngSig <+: data → get_image_type data = some "png") ∧
      ((gif87Sig <+: data ∨ gif89Sig <+: data) → get_image_type data = some "gif") ∧
      ((riffSig <+: data ∧ (data.drop 8).take 4 = webpTag) →
        get_image_type data = some "webp") ∧
      ((¬ jpegSig <+: data) ∧ (¬ pngSig <+: data) ∧ (¬ gif87Sig <+: data) ∧
          (¬ gif89Sig <+: data) ∧
          ¬ (riffSig <+: data ∧ (data.drop 8).take 4 = webpTag) →
        get_image_type data = none)) := by
  constructor
  · intro h
    simp [get_image_type, h]
  · intro h12
    have hlen : ¬ data.length < 12 := by omega
    refine ⟨?_, ?_, ?_, ?_, ?_⟩
    · intro hj
      have hj' := (starts_with_iff jpegSig data).mpr hj
      simp [get_image_type, hlen, hj']
    · intro hp
      have hp' := (starts_with_iff pngSig data).mpr hp
      have hjf : starts_with jpegSig data = false :=
        sw_excl data (by decide) (by decide) hp'
      simp [get_image_type, hlen, hjf, hp']
    · intro hg
      rcases hg with h87 | h89
      · have h' := (starts_with_iff gif87Sig data).mpr h87
        have hjf : starts_with jpegSig data = false :=
          sw_excl data (by decide) (by decide) h'
        have hpf : starts_with pngSig data = false :=
          sw_excl data (by decide) (by decide) h'
        simp [get_image_type, hlen, hjf, hpf, h']
      · have h' := (starts_with_iff gif89Sig data).mpr h89
        have hjf : starts_with jpegSig data = false :=
          sw_excl data (by decide) (by decide) h'
        have hpf : starts_with pngSig data = false :=
          sw_excl data (by decide) (by decide) h'
        simp [get_image_type, hlen, hjf, hpf, h']
    · intro hw
      obtain ⟨hr, htag⟩ := hw
      have hr' := (starts_with_iff riffSig data).mpr hr
      have hjf : starts_with jpegSig data = false :=
        sw_excl data (by decide) (by decide) hr'
      have hpf : starts_with pngSig data = false :=
        sw_excl data (by decide) (by decide) hr'
      have h87f : starts_with gif87Sig data = false :=
        sw_excl data (by decide) (by decide) hr'
      have h89f : starts_with gif89Sig data = false :=
        sw_excl data (by decide) (by decide) hr'
      simp [get_image_type, hlen, hjf, hpf, h87f, h89f, hr', htag]
    · intro hn
      obtain ⟨h1, h2, h3, h4, h5⟩ := hn
      have hjf := sw_eq_false_of_not h1
      have hpf := sw_eq_false_of_not h2
      have h87f := sw_eq_false_of_not h3
      have h89f := sw_eq_false_of_not h4
      have hwf : (starts_with riffSig data && ((data.drop 8).take 4 == webpTag)) = false := by
        cases hb : (starts_with riffSig data && ((data.drop 8).take 4 == webpTag)) with
        | false => rfl
        | true =>
          simp only [Bool.and_eq_true] at hb
          obtain ⟨ha, htg⟩ := hb
          exact absurd ⟨(starts_with_iff riffSig data).mp ha, eq_of_beq htg⟩ h5
      simp [get_image_type, hlen, hjf, hpf, h87f, h89f, hwf]

/-- Witness for the detector contract, evaluated at a concrete JPEG header. -/
theorem image_type_detector_contract_witness :
    get_image_type [0xff, 0xd8, 0xff, 0, 0, 0, 0, 0, 0, 0, 0, 0] = some "jpeg" :=
  ((image_type_detector_contract [0xff, 0xd8, 0xff, 0, 0, 0, 0, 0, 0, 0, 0, 0]).2
    (by decide)).1 (by decide)

/-! ### Lemmas about splitext and the rename map -/

lemma splitext_append (p : List Char) : (splitext p).1 ++ (splitext p).2 = p := by
  unfold splitext
  dsimp only
  split
  · split
    · exact List.take_append_drop _ _
    · simp
  · simp

lemma replace_extension_of_ext {nm ext : FName} (h : (splitext nm).2 = ext) :
    replace_extension nm ext = nm := by
  unfold replace_extension
  rw [← h, splitext_append]

lemma encExt_cases {enc : String} {ext : FName} (hext : encExt enc = some ext) :
    (enc = "WebP" ∧ ext = ".webp".toList) ∨ (enc = "JPEG" ∧ ext = ".jpg".toList) ∨
      (enc = "PNG" ∧ ext = ".png".toList) := by
  unfold encExt at hext
  by_cases h1 : enc = "WebP"
  · rw [if_pos h1] at hext
    exact Or.inl ⟨h1, (Option.some_inj.mp hext).symm⟩
  · rw [if_neg h1] at hext
    by_cases h2 : enc = "JPEG"
    · rw [if_pos h2] at hext
      exact Or.inr (Or.inl ⟨h2, (Option.some_inj.mp hext).symm⟩)
    · rw [if_neg h2] at hext
      by_cases h3 : enc = "PNG"
      · rw [if_pos h3] at hext
        exact Or.inr (Or.inr ⟨h3, (Option.some_inj.mp hext).symm⟩)
      · rw [if_neg h3] at hext
        exact Option.noConfusion hext

lemma filter_map_cons (ext n : FName) (rest : List FName) :
    ((n :: rest).map fun m => (m, replace_extension m ext)).filter
        (fun p => !(p.1 == p.2)) =
      (if n = replace_extension n ext then [] else [(n, replace_extension n ext)]) ++
        ((rest.map fun m => (m, replace_extension m ext)).filter
          fun p => !(p.1 == p.2)) := by
  rw [List.map_cons, List.filter_cons]
  by_cases hnv : n = replace_extension n ext
  · rw [if_pos hnv, show (n == replace_extension n ext) = true from beq_iff_eq.mpr hnv]
    simp
  · rw [if_neg hnv,
      show (n == replace_extension n ext) = false from beq_eq_false_iff_ne.mpr hnv]
    simp

lemma build_replace_map_eq (enc : String) (ext : FName) (hext : encExt enc = some ext)
    (all : List FName) :
    build_replace_map enc all =
      (all.map fun n => (n, replace_extension n ext)).filter fun p => !(p.1 == p.2) := by
  rcases encExt_cases hext with ⟨he, hx⟩ | ⟨he, hx⟩ | ⟨he, hx⟩
  · subst he; subst hx
    induction all with
    | nil => rfl
    | cons n rest ih =>
      have hunf : build_replace_map "WebP" (n :: rest) =
          (if n = replace_extension n ".webp".toList then []
            else [(n, replace_extension n ".webp".toList)]) ++
            build_replace_map "WebP" rest := by
        simp [build_replace_map]
      rw [hunf, ih, filter_map_cons]
  · subst he; subst hx
    induction all with
    | nil => rfl
    | cons n rest ih =>
      have hunf : build_replace_map "JPEG" (n :: rest) =
          (if n = replace_extension n ".jpg".toList then []
            else [(n, replace_extension n ".jpg".toList)]) ++
            build_replace_map "JPEG" rest := by
        simp [build_replace_map]
      rw [hunf, ih, filter_map_cons]
  · subst he; subst hx
    induction all with
    | nil => rfl
    | cons n rest ih =>
      have hunf : build_replace_map "PNG" (n :: rest) =
          (if n = replace_extension n ".png".toList then []
            else [(n, replace_extension n ".png".toList)]) ++
            build_replace_map "PNG" rest := by
        simp [build_replace_map]
      rw [hunf, ih, filter_map_cons]

lemma build_replace_map_mem {enc : String} {ext : FName} (hext : encExt enc = some ext)
    (all : List FName) (nm v : FName) :
    (nm, v) ∈ build_replace_map enc all ↔
      nm ∈ all ∧ v = replace_extension nm ext ∧ nm ≠ v := by
  rw [build_replace_map_eq enc ext hext all]
  simp only [List.mem_filter, List.mem_map]
  constructor
  · rintro ⟨⟨n, hn, heq⟩, hne⟩
    cases heq
    refine ⟨hn, rfl, ?_⟩
    simpa using hne
  · rintro ⟨hn, rfl, hne⟩
    exact ⟨⟨nm, hn, rfl⟩, by simpa using hne⟩

lemma build_replace_map_none {enc : String} (hext : encExt enc = none)
    (all : List FName) : build_replace_map enc all = [] := by
  unfold encExt at hext
  cases all with
  | nil => rfl
  | cons n rest =>
    by_cases h1 : enc = "WebP"
    · rw [if_pos h1] at hext; exact Option.noConfusion hext
    · by_cases h2 : enc = "JPEG"
      · rw [if_neg h1, if_pos h2] at hext; exact Option.noConfusion hext
      · by_cases h3 : enc = "PNG"
        · rw [if_neg h1, if_neg h2, if_pos h3] at hext; exact Option.noConfusion hext
        · simp [build_replace_map, h1, h2, h3]

lemma rename_files_nil (c : Container) : rename_files c [] = c := by
  unfold rename_files
  simp only [map_lookup, Option.getD_none]
  simp

/-- Claim C4 counterexample: with target encoding WebP the name ".webp"
already ends in the target extension ".webp" and yet is not omitted from the
rename map: os.path.splitext treats the dot-file name as extensionless, so
the map sends it to ".webp.webp". -/
theorem rename_map_suffix_cex :
    ".webp".toList.isSuffixOf ".webp".toList = true ∧
    build_replace_map "WebP" [".webp".toList] =
      [(".webp".toList, ".webp.webp".toList)] := by decide

/-- Claim C4 (amended): for every target encoding among WebP, JPEG, PNG with
implied extension ext, the rename map contains, for exactly those names
whose extension-replaced form differs from the original, an entry mapping
the name to its splitext base name plus ext; it never contains an identity
entry; and a name whose splitext extension already equals ext is omitted
(dot-file-style names such as ".webp" count as extensionless, so they are
mapped rather than omitted). -/
theorem rename_map_characterization (enc : String) (ext : FName) (all : List FName)
    (hext : encExt enc = some ext) :
    (∀ nm v, (nm, v) ∈ build_replace_map enc all ↔
      nm ∈ all ∧ v = replace_extension nm ext ∧ nm ≠ v) ∧
    (∀ nm v, (nm, v) ∈ build_replace_map enc all → nm ≠ v) ∧
    (∀ nm, nm ∈ all → (splitext nm).2 = ext →
      ∀ v, (nm, v) ∉ build_replace_map enc all) := by
  refine ⟨fun nm v => build_replace_map_mem hext all nm v, ?_, ?_⟩
  · intro nm v h
    exact ((build_replace_map_mem hext all nm v).mp h).2.2
  · intro nm hmem hsp v h
    obtain ⟨_, hv, hne⟩ := (build_replace_map_mem hext all nm v).mp h
    exact hne (hv.trans (replace_extension_of_ext hsp)).symm

/-- Witness for the amended rename-map characterization at a concrete name. -/
theorem rename_map_characterization_witness :
    ("a.dat".toList, "a.webp".toList) ∈ build_replace_map "WebP" ["a.dat".toList] :=
  ((rename_map_characterization "WebP" ".webp".toList ["a.dat".toList] (by decide)).1
    "a.dat".toList "a.webp".toList).mpr (by decide)

/-- Claim C9: the rename-map computation of the Finalizer is a pure function
of the all_images snapshot and the target encoding: two job states agreeing
on all_images yield the same map, and recomputing it on the same inputs
yields the same map both times. -/
theorem rename_map_pure_idempotent (enc : String) (s1 s2 : JobState)
    (h : s1.all_images = s2.all_images) :
    build_replace_map enc s1.all_images = build_replace_map enc s2.all_images ∧
    build_replace_map enc s1.all_images = build_replace_map enc s1.all_images :=
  ⟨by rw [h], rfl⟩

/-- Witness for rename-map purity on two concrete states sharing all_images. -/
theorem rename_map_pure_idempotent_witness :
    build_replace_map "WebP" (initJob ["a.png".toList] []).all_images =
      build_replace_map "WebP" (do_end "WebP" (initJob ["a.png".toList] [])).all_images :=
  (rename_map_pure_idempotent "WebP" (initJob ["a.png".toList] [])
    (do_end "WebP" (initJob ["a.png".toList] [])) (by decide)).1

/-- Claim C10: the computed rename map need not be injective: with target
encoding WebP and both a.png and a.jpg among the detected names, two
distinct original names are mapped to the same new name a.webp, so the
single bulk rename is handed colliding targets. -/
theorem rename_map_collision :
    "a.png".toList ≠ "a.jpg".toList ∧
    build_replace_map "WebP" ["a.png".toList, "a.jpg".toList] =
      [("a.png".toList, "a.webp".toList), ("a.jpg".toList, "a.webp".toList)] := by
  decide

/-- Claim C8: for every job state and every target encoding other than WebP,
JPEG and PNG, finalization skips the rename pass entirely: the rename map is
empty (no partial map is built) and no file in the container is renamed; the
embedding is total, so no error is raised. -/
theorem unrecognized_encoding_noop (enc : String) (s : JobState)
    (h1 : enc ≠ "WebP") (h2 : enc ≠ "JPEG") (h3 : enc ≠ "PNG") :
    build_replace_map enc s.all_images = [] ∧
    (do_end enc s).container = s.container := by
  have hnone : encExt enc = none := by simp [encExt, h1, h2, h3]
  have hmap := build_replace_map_none hnone s.all_images
  refine ⟨hmap, ?_⟩
  simp [do_end, hmap, rename_files_nil]

/-- Witness for the unrecognized-encoding branch at the concrete encoding GIF. -/
theorem unrecognized_encoding_noop_witness :
    (do_end "GIF" (initJob ["a.png".toList] [])).container =
      (initJob ["a.png".toList] []).container :=
  (unrecognized_encoding_noop "GIF" (initJob ["a.png".toList] [])
    (by decide) (by decide) (by decide)).2

/-! ### Lemmas about the batch scanner -/

lemma scan_mem (c : Container) (n : FName) :
    n ∈ get_images_from_collection c ↔
      ∃ b, (n, Except.ok b) ∈ c ∧ (get_image_type (b.take 12)).isSome = true := by
  induction c with
  | nil => simp [get_images_from_collection]
  | cons e rest ih =>
    obtain ⟨m, content⟩ := e
    cases content with
    | error s => simp [get_images_from_collection, ih]
    | ok b0 =>
      by_cases hrec : (get_image_type (b0.take 12)).isSome = true
      · simp only [get_images_from_collection, if_pos hrec, List.singleton_append,
          List.mem_cons, ih]
        constructor
        · rintro (rfl | ⟨b, hb, hr⟩)
          · exact ⟨b0, Or.inl rfl, hrec⟩
          · exact ⟨b, Or.inr hb, hr⟩
        · rintro ⟨b, hb | hb, hr⟩
          · rw [Prod.mk.injEq] at hb
            obtain ⟨hn, hbb⟩ := hb
            exact Or.inl hn
          · exact Or.inr ⟨b, hb, hr⟩
      · simp only [get_images_from_collection, if_neg hrec, List.nil_append, ih,
          List.mem_cons]
        constructor
        · rintro ⟨b, hb, hr⟩
          exact ⟨b, Or.inr hb, hr⟩
        · rintro ⟨b, hb | hb, hr⟩
          · rw [Prod.mk.injEq] at hb
            obtain ⟨hn, hbb⟩ := hb
            cases hbb
            exact absurd hr hrec
          · exact ⟨b, hb, hr⟩

lemma scan_sublist (c : Container) :
    List.Sublist (get_images_from_collection c) (c.map Prod.fst) := by
  induction c with
  | nil => exact List.Sublist.refl _
  | cons e rest ih =>
    obtain ⟨m, content⟩ := e
    cases content with
    | error s => exact ih.cons m
    | ok b0 =>
      by_cases hrec : (get_image_type (b0.take 12)).isSome = true
      · simp only [get_images_from_collection, if_pos hrec, List.singleton_append,
          List.map_cons]
        exact ih.cons₂ m
      · simp only [get_images_from_collection, if_neg hrec, List.nil_append,
          List.map_cons]
        exact ih.cons m

/-- Claim C6: for every container with distinct entry names, the scan returns
exactly the file names whose first 12 bytes the detector recognizes, each
such name appearing exactly once (no duplicates); a name whose open or read
raises is silently skipped, never surfacing an error (the scan is total and
only returns a list of names). -/
theorem scanner_contract (c : Container) (h : (c.map Prod.fst).Nodup) :
    (get_images_from_collection c).Nodup ∧
    (∀ n, n ∈ get_images_from_collection c ↔
      ∃ b, (n, Except.ok b) ∈ c ∧ (get_image_type (b.take 12)).isSome = true) ∧
    (∀ n e, (n, Except.error e) ∈ c → n ∉ get_images_from_collection c) := by
  refine ⟨(scan_sublist c).nodup h, fun n => scan_mem c n, ?_⟩
  intro n e hmem hcontra
  obtain ⟨b, hb, _⟩ := (scan_mem c n).mp hcontra
  have heq := List.inj_on_of_nodup_map h hmem hb rfl
  rw [Prod.mk.injEq] at heq
  exact Except.noConfusion heq.2

/-- Concrete JPEG header bytes (12 bytes). -/
def jpegBytes : Bytes := [0xff, 0xd8, 0xff, 0, 0, 0, 0, 0, 0, 0, 0, 0]

/-- Concrete PNG header bytes (12 bytes). -/
def pngBytes : Bytes := [0x89, 0x50, 0x4e, 0x47, 0x0d, 0x0a, 0x1a, 0x0a, 0, 0, 0, 0]

/-- Concrete ASCII text bytes (12 bytes, not an image). -/
def textBytes : Bytes := [0x68, 0x65, 0x6c, 0x6c, 0x6f, 0x20, 0x77, 0x6f, 0x72, 0x6c, 0x64, 0x21]

/-- The scan scenario container: a.dat holds JPEG bytes, b.png holds PNG
bytes, c.txt holds plain text. -/
def scanContainer : Container :=
  [("a.dat".toList, Except.ok jpegBytes), ("b.png".toList, Except.ok pngBytes),
   ("c.txt".toList, Except.ok textBytes)]

/-- Witness for the scanner contract on the concrete scenario container. -/
theorem scanner_contract_witness :
    "a.dat".toList ∈ get_images_from_collection scanContainer :=
  ((scanner_contract scanContainer (by decide)).2.1 "a.dat".toList).mpr
    ⟨jpegBytes, by decide, by decide⟩

/-- A container holding only a text file, so the scan detects zero images. -/
def textContainer : Container := [("c.txt".toList, Except.ok textBytes)]

/-- Claim C7, with the code evaluated at the failing input: when the scan
detects zero images the run never starts: mimify_images aborts carrying the
message text and creates no job state, hence no progress dialog exists and
no transcode or rename can occur.  (In the source the QMessageBox holding
the text is constructed but never shown, so the message is not actually
displayed to the user; see the accompanying code-bug record.) -/
theorem empty_batch_aborts :
    get_images_from_collection textContainer = [] ∧
    mimify_images textContainer = Except.error "No images found!" ∧
    (mimify_images textContainer).isOk = false := by decide

/-! ### Lemmas about the step-wise job runner -/

lemma do_end_spec (enc : String) (s : JobState) :
    (do_end enc s).images = s.images ∧
    (do_end enc s).all_images = s.all_images ∧
    (do_end enc s).failures = s.failures ∧
    (do_end enc s).finished = true ∧
    (do_end enc s).progressValue = s.all_images.length + 1 ∧
    (do_end enc s).container =
      rename_files s.container (build_replace_map enc s.all_images) :=
  ⟨rfl, rfl, rfl, rfl, rfl, rfl⟩

lemma do_one_cancel (enc : String) (compress : Bytes → Except String Bytes)
    (s : JobState) : do_one enc compress true s = do_end enc s := by
  simp [do_one]

lemma do_one_empty (enc : String) (compress : Bytes → Except String Bytes)
    (cancelled : Bool) (s : JobState) (h : s.images = []) :
    do_one enc compress cancelled s = do_end enc s := by
  simp [do_one, h]

lemma do_one_pop (enc : String) (compress : Bytes → Except String Bytes)
    (s : JobState) (l2 : List FName) (n : FName) (h : s.images = l2 ++ [n]) :
    do_one enc compress false s =
      { s with images := l2
               container := (step_one compress s.container n).1
               failures := s.failures ++ (step_one compress s.container n).2.toList
               progressValue := s.all_images.length - l2.length } := by
  unfold do_one
  rw [if_neg (by simp [h])]
  rw [h, List.getLast?_concat, List.dropLast_concat]

lemma run_from_succ (enc : String) (compress : Bytes → Except String Bytes)
    (cancel : Nat → Bool) (s : JobState) (t : Nat) :
    run_from enc compress cancel s (t + 1) =
      (if (run_from enc compress cancel s t).finished = true
        then run_from enc compress cancel s t
        else do_one enc compress (cancel t) (run_from enc compress cancel s t)) := rfl

lemma run_from_stationary (enc : String) (compress : Bytes → Except String Bytes)
    (cancel : Nat → Bool) (s : JobState) (t : Nat)
    (h : (run_from enc compress cancel s t).finished = true) :
    ∀ u, t ≤ u → run_from enc compress cancel s u = run_from enc compress cancel s t := by
  intro u
  induction u with
  | zero =>
    intro hu
    have ht0 : t = 0 := Nat.le_zero.mp hu
    rw [ht0]
  | succ u ih =>
    intro hu
    rcases Nat.lt_or_ge t (u + 1) with hlt | hge
    · have htu : t ≤ u := Nat.lt_succ_iff.mp hlt
      have heq := ih htu
      rw [run_from_succ, heq, if_pos h]
    · have : t = u + 1 := Nat.le_antisymm hu hge
      rw [this]

lemma run_from_shift (enc : String) (compress : Bytes → Except String Bytes)
    (cancel : Nat → Bool) (s : JobState) (t : Nat) (hfin : s.finished = false) :
    run_from enc compress cancel s (t + 1) =
      run_from enc compress (fun i => cancel (i + 1))
        (do_one enc compress (cancel 0) s) t := by
  induction t with
  | zero =>
    rw [run_from_succ, show run_from enc compress cancel s 0 = s from rfl, hfin]
    simp only [Bool.false_eq_true, if_false]
    rfl
  | succ t ih =>
    rw [run_from_succ, ih, run_from_succ]

lemma lookupRaw_replaceFile_ne (c : Container) (n m : FName) (b : Bytes)
    (h : m ≠ n) : lookupRaw (replaceFile c n b) m = lookupRaw c m := by
  induction c with
  | nil => rfl
  | cons e rest ih =>
    obtain ⟨k, v⟩ := e
    simp only [replaceFile]
    by_cases hk : k = n
    · have hkm : ¬ k = m := by rw [hk]; exact Ne.symm h
      rw [if_pos hk]
      simp only [lookupRaw]
      rw [if_neg (Ne.symm h), if_neg hkm]
      exact ih
    · rw [if_neg hk]
      simp only [lookupRaw]
      by_cases hkm : k = m
      · rw [if_pos hkm, if_pos hkm]
      · rw [if_neg hkm, if_neg hkm]
        exact ih

lemma lookupRaw_replaceFile_self (c : Container) (n : FName) (b : Bytes)
    (x : Except String Bytes) (h : lookupRaw c n = some x) :
    lookupRaw (replaceFile c n b) n = some (Except.ok b) := by
  induction c with
  | nil => exact Option.noConfusion h
  | cons e rest ih =>
    obtain ⟨k, v⟩ := e
    simp only [replaceFile]
    by_cases hk : k = n
    · rw [if_pos hk]
      simp [lookupRaw]
    · rw [if_neg hk]
      simp only [lookupRaw, if_neg hk] at h
      simp only [lookupRaw]
      rw [if_neg hk]
      exact ih h

lemma step_one_cases (compress : Bytes → Except String Bytes) (c : Container)
    (n : FName) :
    (∃ e, failDetail compress c n = some (n, e) ∧
      step_one compress c n = (c, some (n, e))) ∨
    (∃ b nb, lookupRaw c n = some (Except.ok b) ∧ compress b = Except.ok nb ∧
      failDetail compress c n = none ∧
      step_one compress c n = (replaceFile c n nb, none)) := by
  unfold failDetail step_one
  cases hl : lookupRaw c n with
  | none => exact Or.inl ⟨"KeyError", rfl, rfl⟩
  | some v =>
    cases v with
    | error e => exact Or.inl ⟨e, rfl, rfl⟩
    | ok b =>
      dsimp only
      cases hc : compress b with
      | error e => exact Or.inl ⟨e, rfl, rfl⟩
      | ok nb => exact Or.inr ⟨b, nb, rfl, hc, rfl, rfl⟩

lemma failDetail_congr (compress : Bytes → Except String Bytes)
    {c c' : Container} (m : FName) (h : lookupRaw c' m = lookupRaw c m) :
    failDetail compress c' m = failDetail compress c m := by
  unfold failDetail step_one
  rw [h]
  cases lookupRaw c m with
  | none => rfl
  | some v =>
    cases v with
    | error e => rfl
    | ok b =>
      dsimp only
      cases compress b with
      | error e => rfl
      | ok nb => rfl

lemma process_list_spec (compress : Bytes → Except String Bytes) :
    ∀ (names : List FName) (c : Container), names.Nodup →
      ((process_list compress c names).2 =
        names.filterMap (failDetail compress c)) ∧
      (∀ m, m ∉ names →
        lookupRaw (process_list compress c names).1 m = lookupRaw c m) ∧
      (∀ m, m ∈ names → failDetail compress c m ≠ none →
        lookupRaw (process_list compress c names).1 m = lookupRaw c m) ∧
      (∀ m b nb, m ∈ names → lookupRaw c m = some (Except.ok b) →
        compress b = Except.ok nb →
        lookupRaw (process_list compress c names).1 m = some (Except.ok nb)) := by
  intro names
  induction names with
  | nil =>
    intro c _
    refine ⟨rfl, fun m _ => rfl, fun m hm => absurd hm (List.not_mem_nil m), ?_⟩
    intro m b nb hm
    exact absurd hm (List.not_mem_nil m)
  | cons n rest ih =>
    intro c hnd
    obtain ⟨hn_not, hnd2⟩ := List.nodup_cons.mp hnd
    rcases step_one_cases compress c n with ⟨e, hfd, hstep⟩ |
      ⟨b, nb, hlook, hcomp, hfd, hstep⟩
    · -- the step on n fails and leaves the container untouched
      obtain ⟨ihf, ihnot, ihfail, ihok⟩ := ih c hnd2
      have hpl1 : (process_list compress c (n :: rest)).1 =
          (process_list compress c rest).1 := by
        simp [process_list, hstep]
      have hpl2 : (process_list compress c (n :: rest)).2 =
          (n, e) :: (process_list compress c rest).2 := by
        simp [process_list, hstep]
      refine ⟨?_, ?_, ?_, ?_⟩
      · rw [hpl2, ihf, List.filterMap_cons_some hfd]
      · intro m hm
        rw [hpl1]
        exact ihnot m (fun hmr => hm (List.mem_cons_of_mem n hmr))
      · intro m hm hdm
        rw [hpl1]
        rcases List.mem_cons.mp hm with rfl | hmr
        · exact ihnot m hn_not
        · exact ihfail m hmr hdm
      · intro m b2 nb2 hm hlook2 hcomp2
        rcases List.mem_cons.mp hm with rfl | hmr
        · exfalso
          have hnone : failDetail compress c m = none := by
            unfold failDetail step_one
            rw [hlook2]
            dsimp only
            rw [hcomp2]
          rw [hfd] at hnone
          exact Option.noConfusion hnone
        · rw [hpl1]
          exact ihok m b2 nb2 hmr hlook2 hcomp2
    · -- the step on n succeeds and replaces the bytes of n
      have hc1ne : ∀ m, m ≠ n →
          lookupRaw (replaceFile c n nb) m = lookupRaw c m :=
        fun m hm => lookupRaw_replaceFile_ne c n m nb hm
      obtain ⟨ihf, ihnot, ihfail, ihok⟩ := ih (replaceFile c n nb) hnd2
      have hpl1 : (process_list compress c (n :: rest)).1 =
          (process_list compress (replaceFile c n nb) rest).1 := by
        simp [process_list, hstep]
      have hpl2 : (process_list compress c (n :: rest)).2 =
          (process_list compress (replaceFile c n nb) rest).2 := by
        simp [process_list, hstep]
      have hfd_congr : ∀ m ∈ rest,
          failDetail compress (replaceFile c n nb) m = failDetail compress c m := by
        intro m hmr
        have hmn : m ≠ n := fun hmn => hn_not (hmn ▸ hmr)
        exact failDetail_congr compress m (hc1ne m hmn)
      refine ⟨?_, ?_, ?_, ?_⟩
      · rw [hpl2, ihf, List.filterMap_cons_none hfd,
          List.filterMap_congr hfd_congr]
      · intro m hm
        rw [hpl1]
        have hmn : m ≠ n := fun hmn => hm (hmn ▸ List.mem_cons_self n rest)
        rw [ihnot m (fun hmr => hm (List.mem_cons_of_mem n hmr))]
        exact hc1ne m hmn
      · intro m hm hdm
        rcases List.mem_cons.mp hm with rfl | hmr
        · exact absurd hfd hdm
        · have hmn : m ≠ n := fun hmn => hn_not (hmn ▸ hmr)
          rw [hpl1]
          have hdm2 : failDetail compress (replaceFile c n nb) m ≠ none := by
            rw [hfd_congr m hmr]; exact hdm
          rw [ihfail m hmr hdm2]
          exact hc1ne m hmn
      · intro m b2 nb2 hm hlook2 hcomp2
        rcases List.mem_cons.mp hm with rfl | hmr
        · -- m = n: its new content is the compressed bytes
          have hb2 : Except.ok b2 = Except.ok (ε := String) b := by
            have := hlook2.symm.trans hlook
            exact Option.some_inj.mp this
          cases hb2
          have hnb2 : nb2 = nb := by
            have := hcomp2.symm.trans hcomp
            cases this
            rfl
          cases hnb2
          rw [hpl1, ihnot m ?hnot]
          case hnot =>
            intro hmr
            exact hn_not hmr
          exact lookupRaw_replaceFile_self c m nb _ hlook2
        · have hmn : m ≠ n := fun hmn => hn_not (hmn ▸ hmr)
          rw [hpl1]
          refine ihok m b2 nb2 hmr ?_ hcomp2
          rw [hc1ne m hmn]
          exact hlook2

lemma do_end_congr (enc : String) (X Y : JobState)
    (h1 : X.images = Y.images) (h2 : X.all_images = Y.all_images)
    (h3 : X.container = Y.container) (h4 : X.failures = Y.failures)
    (h5 : X.progressMax = Y.progressMax) :
    do_end enc X = do_end enc Y := by
  obtain ⟨xi, xa, xp, xm, xc, xf, xn⟩ := X
  obtain ⟨yi, ya, yp, ym, yc, yf, yn⟩ := Y
  dsimp only at h1 h2 h3 h4 h5
  subst h1; subst h2; subst h3; subst h4; subst h5
  rfl

lemma run_no_cancel (enc : String) (compress : Bytes → Except String Bytes) :
    ∀ (l : List FName) (cancel : Nat → Bool) (s : JobState),
      (∀ i, cancel i = false) → s.images = l → s.finished = false →
      run_from enc compress cancel s (l.length + 1) =
        do_end enc
          { s with images := []
                   container := (process_list compress s.container l.reverse).1
                   failures := s.failures ++ (process_list compress s.container l.reverse).2 } := by
  intro l
  induction l using List.reverseRecOn with
  | nil =>
    intro cancel s hcan him hfin
    have h1 : run_from enc compress cancel s 1 = do_one enc compress (cancel 0) s := by
      rw [run_from_succ, show run_from enc compress cancel s 0 = s from rfl, hfin]
      simp only [Bool.false_eq_true, if_false]
    rw [show ([] : List FName).length + 1 = 1 from rfl, h1, hcan 0,
      do_one_empty enc compress false s him]
    exact do_end_congr enc _ _ him rfl rfl (List.append_nil s.failures).symm rfl
  | append_singleton l2 n ih =>
    intro cancel s hcan him hfin
    have hlen : (l2 ++ [n]).length + 1 = (l2.length + 1) + 1 := by simp
    rw [hlen, run_from_shift enc compress cancel s (l2.length + 1) hfin, hcan 0,
      do_one_pop enc compress s l2 n him]
    have h2 := ih (fun i => cancel (i + 1))
      { s with images := l2
               container := (step_one compress s.container n).1
               failures := s.failures ++ (step_one compress s.container n).2.toList
               progressValue := s.all_images.length - l2.length }
      (fun i => hcan (i + 1)) rfl hfin
    rw [h2]
    apply do_end_congr
    · rfl
    · rfl
    · rw [List.reverse_concat]
      simp only [process_list]
    · rw [List.reverse_concat]
      simp only [process_list]
      rw [List.append_assoc]
    · rfl

lemma filterMap_eq_single {α β : Type} (f : α → Option β) :
    ∀ (l : List α) (k : α) (b : β), l.Nodup → k ∈ l → f k = some b →
      (∀ n ∈ l, n ≠ k → f n = none) → l.filterMap f = [b] := by
  intro l
  induction l with
  | nil => intro k b _ hk _ _; exact absurd hk (List.not_mem_nil k)
  | cons a rest ih =>
    intro k b hnd hk hfk hother
    obtain ⟨ha_not, hnd2⟩ := List.nodup_cons.mp hnd
    rcases List.mem_cons.mp hk with rfl | hkr
    · rw [List.filterMap_cons_some hfk]
      have hnil : rest.filterMap f = [] := by
        rw [List.filterMap_eq_nil_iff]
        intro x hx
        exact hother x (List.mem_cons_of_mem _ hx) (fun hxk => ha_not (hxk ▸ hx))
      rw [hnil]
    · have hak : a ≠ k := fun h => ha_not (h ▸ hkr)
      rw [List.filterMap_cons_none (hother a (List.mem_cons_self a rest) hak)]
      exact ih k b hnd2 hkr hfk (fun n hn hnk => hother n (List.mem_cons_of_mem _ hn) hnk)

/-- The state of a batch run started from the scan of container c, after t
timer ticks. -/
def the_run (enc : String) (compress : Bytes → Except String Bytes)
    (cancel : Nat → Bool) (c : Container) (t : Nat) : JobState :=
  run_from enc compress cancel (initJob (get_images_from_collection c) c) t

/-- The container state reached after the stepping phase of an uncancelled
run: every detected image attempted in popping order (last detected first),
before the bulk rename of finalization. -/
def stepped_container (compress : Bytes → Except String Bytes) (c : Container) : Container :=
  (process_list compress c (get_images_from_collection c).reverse).1

/-- The runner invariant: pending is a front segment of all_images, and
while the run is not finalized the progress value is
count(all) - count(pending). -/
def Inv (s : JobState) : Prop :=
  s.images <+: s.all_images ∧
  (s.finished = false → s.progressValue = s.all_images.length - s.images.length)

lemma dropLast_pre {α : Type} (l : List α) : l.dropLast <+: l := by
  refine ⟨l.drop (l.length - 1), ?_⟩
  rw [List.dropLast_eq_take, List.take_append_drop]

lemma inv_init (images : List FName) (c : Container) : Inv (initJob images c) :=
  ⟨List.prefix_rfl, fun _ => (Nat.sub_self _).symm⟩

lemma inv_do_one (enc : String) (compress : Bytes → Except String Bytes)
    (cancelled : Bool) (s : JobState) (h : Inv s) :
    Inv (do_one enc compress cancelled s) := by
  unfold do_one
  split
  · refine ⟨h.1, ?_⟩
    intro hf
    exact absurd hf (by simp [do_end])
  · cases hg : s.images.getLast? with
    | none => exact h
    | some name =>
      refine ⟨(dropLast_pre s.images).trans h.1, ?_⟩
      intro _
      rfl

lemma do_one_all (enc : String) (compress : Bytes → Except String Bytes)
    (cancelled : Bool) (s : JobState) :
    (do_one enc compress cancelled s).all_images = s.all_images := by
  unfold do_one
  split
  · rfl
  · cases hg : s.images.getLast? with
    | none => rfl
    | some name => rfl

lemma run_all_images (enc : String) (compress : Bytes → Except String Bytes)
    (cancel : Nat → Bool) (s : JobState) (t : Nat) :
    (run_from enc compress cancel s t).all_images = s.all_images := by
  induction t with
  | zero => rfl
  | succ t ih =>
    rw [run_from_succ]
    split
    · exact ih
    · rw [do_one_all]
      exact ih

lemma inv_run (enc : String) (compress : Bytes → Except String Bytes)
    (cancel : Nat → Bool) (s : JobState) (h : Inv s) (t : Nat) :
    Inv (run_from enc compress cancel s t) := by
  induction t with
  | zero => exact h
  | succ t ih =>
    rw [run_from_succ]
    split
    · exact ih
    · exact inv_do_one enc compress (cancel t) _ ih

/-- Claim C5: along every run started from the scan of a container, at every
step boundary pending is a front segment (hence a subset) of all, count(all)
equals count(pending) plus the count of images processed or skipped so far
(pending followed by the processed suffix reconstitutes all exactly), and
after every image step, while the run is not finalized, the progress value
equals count(all) - count(pending).  (The finalize tick is not an image
step: it sets progress to count(all) + 1.) -/
theorem batch_step_invariant (enc : String) (compress : Bytes → Except String Bytes)
    (cancel : Nat → Bool) (c : Container) (t : Nat) :
    (the_run enc compress cancel c t).images <+: (the_run enc compress cancel c t).all_images ∧
    (the_run enc compress cancel c t).images ⊆ (the_run enc compress cancel c t).all_images ∧
    (the_run enc compress cancel c t).all_images.length =
      (the_run enc compress cancel c t).images.length +
        (processed_so_far (the_run enc compress cancel c t)).length ∧
    (the_run enc compress cancel c t).images ++ processed_so_far (the_run enc compress cancel c t) =
      (the_run enc compress cancel c t).all_images ∧
    ((the_run enc compress cancel c t).finished = false →
      (the_run enc compress cancel c t).progressValue =
        (the_run enc compress cancel c t).all_images.length -
          (the_run enc compress cancel c t).images.length) := by
  unfold the_run
  have h := inv_run enc compress cancel _ (inv_init (get_images_from_collection c) c) t
  obtain ⟨hpre, hprog⟩ := h
  have hlen := hpre.length_le
  have htake := List.prefix_iff_eq_take.mp hpre
  refine ⟨hpre, hpre.subset, ?_, ?_, hprog⟩
  · unfold processed_so_far
    rw [List.length_drop]
    omega
  · unfold processed_so_far
    nth_rewrite 1 [htake]
    exact List.take_append_drop _ _

/-- The witness container for runner claims: a.dat holds JPEG bytes and
b.png holds PNG bytes. -/
def wContainer : Container :=
  [("a.dat".toList, Except.ok jpegBytes), ("b.png".toList, Except.ok pngBytes)]

/-- The witness transcoder oracle: it raises exactly on the PNG bytes and
appends one byte otherwise. -/
def wCompress : Bytes → Except String Bytes :=
  fun b => if b == pngBytes then Except.error "bad" else Except.ok (b ++ [0])

/-- Witness for the batch runner invariant after one concrete step. -/
theorem batch_step_invariant_witness :
    (the_run "WebP" wCompress (fun _ => false) wContainer 1).progressValue =
      (the_run "WebP" wCompress (fun _ => false) wContainer 1).all_images.length -
        (the_run "WebP" wCompress (fun _ => false) wContainer 1).images.length :=
  (batch_step_invariant "WebP" wCompress (fun _ => false) wContainer 1).2.2.2.2 (by decide)

/-- Claim C1: failure isolation.  For every run over the set of N detected
images of a container with distinct entry names in which exactly one image k
makes the transcode-or-replace step raise (reported detail e) while every
other detected image succeeds, the uncancelled runner reports exactly one
failure, carrying the failing name k and the detail e; k's bytes in the
container stay untouched through the whole stepping phase; k remains in the
all_images set (which still equals the detected set); each of the N-1 other
images is processed, its bytes replaced by the transcoder's output; the
finalization hands the stepped container to the bulk rename; and the final
progress value reaches N + 1 with the run finished. -/
theorem failure_isolation_runner (enc : String)
    (compress : Bytes → Except String Bytes) (c : Container) (k : FName) (e : String)
    (hnames : (c.map Prod.fst).Nodup)
    (hmem : k ∈ get_images_from_collection c)
    (hkf : failDetail compress c k = some (k, e))
    (hok : ∀ n ∈ get_images_from_collection c, n ≠ k → failDetail compress c n = none) :
    (the_run enc compress (fun _ => false) c
        ((get_images_from_collection c).length + 1)).failures = [(k, e)] ∧
    k ∈ (the_run enc compress (fun _ => false) c
        ((get_images_from_collection c).length + 1)).all_images ∧
    (the_run enc compress (fun _ => false) c
        ((get_images_from_collection c).length + 1)).all_images =
      get_images_from_collection c ∧
    lookupRaw (stepped_container compress c) k = lookupRaw c k ∧
    (∀ n ∈ get_images_from_collection c, n ≠ k → ∀ b,
      lookupRaw c n = some (Except.ok b) → ∃ nb, compress b = Except.ok nb ∧
        lookupRaw (stepped_container compress c) n = some (Except.ok nb)) ∧
    (the_run enc compress (fun _ => false) c
        ((get_images_from_collection c).length + 1)).container =
      rename_files (stepped_container compress c)
        (build_replace_map enc (get_images_from_collection c)) ∧
    (the_run enc compress (fun _ => false) c
        ((get_images_from_collection c).length + 1)).progressValue =
      (get_images_from_collection c).length + 1 ∧
    (the_run enc compress (fun _ => false) c
        ((get_images_from_collection c).length + 1)).finished = true := by
  unfold the_run stepped_container
  set images := get_images_from_collection c with himg
  have hndimg : images.Nodup := (scan_sublist c).nodup hnames
  have hndrev : images.reverse.Nodup := List.nodup_reverse.mpr hndimg
  have hrun := run_no_cancel enc compress images (fun _ => false)
    (initJob images c) (fun _ => rfl) rfl rfl
  rw [hrun]
  obtain ⟨hf, hnotin, hfail, hsucc⟩ := process_list_spec compress images.reverse c hndrev
  have hfd_ne : failDetail compress c k ≠ none := by
    rw [hkf]; exact fun h => Option.noConfusion h
  refine ⟨?_, hmem, rfl, ?_, ?_, rfl, rfl, rfl⟩
  · -- exactly one reported failure, carrying name and detail
    show (initJob images c).failures ++ (process_list compress c images.reverse).2 = [(k, e)]
    rw [show (initJob images c).failures = [] from rfl, List.nil_append, hf]
    refine filterMap_eq_single (failDetail compress c) images.reverse k (k, e)
      hndrev (List.mem_reverse.mpr hmem) hkf ?_
    intro n hn hnk
    exact hok n (List.mem_reverse.mp hn) hnk
  · -- the failing image's bytes are untouched before the rename
    exact hfail k (List.mem_reverse.mpr hmem) hfd_ne
  · -- every other image is processed: its bytes become the transcoder output
    intro n hn hnk b hb
    have hnone := hok n hn hnk
    cases hcb : compress b with
    | error e2 =>
      exfalso
      have : failDetail compress c n = some (n, e2) := by
        unfold failDetail step_one
        rw [hb]
        dsimp only
        rw [hcb]
      rw [hnone] at this
      exact Option.noConfusion this
    | ok nb =>
      exact ⟨nb, rfl, hsucc n b nb (List.mem_reverse.mpr hn) hb hcb⟩

/-- Witness for failure isolation: in the two-image witness container the
oracle raises exactly on b.png, and the run reports exactly that failure. -/
theorem failure_isolation_runner_witness :
    (the_run "WebP" wCompress (fun _ => false) wContainer
        ((get_images_from_collection wContainer).length + 1)).failures =
      [("b.png".toList, "bad")] :=
  (failure_isolation_runner "WebP" wCompress wContainer "b.png".toList "bad"
    (by decide) (by decide) (by decide) (by decide)).1

lemma rename_files_snd (c : Container) (m : List (FName × FName)) :
    (rename_files c m).map Prod.snd = c.map Prod.snd := by
  unfold rename_files
  rw [List.map_map]
  rfl

/-- Claim C2: cancellation semantics.  For every run, if at the start of
tick t the run is not yet finished and the cancel signal is observed, that
tick performs exactly the finalization do_end: no image from pending is
transcoded or replaced (the byte content of every container entry is
unchanged, only names change through the bulk rename), already-replaced
images keep their new content, the bulk rename is still executed over the
map built from every name in all_images (which still equals the full
detected set, never-processed names included), and every later tick leaves
the state unchanged. -/
theorem cancellation_semantics (enc : String) (compress : Bytes → Except String Bytes)
    (cancel : Nat → Bool) (c : Container) (t : Nat)
    (hfin : (the_run enc compress cancel c t).finished = false)
    (hc : cancel t = true) :
    the_run enc compress cancel c (t + 1) =
      do_end enc (the_run enc compress cancel c t) ∧
    (the_run enc compress cancel c (t + 1)).container =
      rename_files (the_run enc compress cancel c t).container
        (build_replace_map enc (the_run enc compress cancel c t).all_images) ∧
    (the_run enc compress cancel c (t + 1)).container.map Prod.snd =
      (the_run enc compress cancel c t).container.map Prod.snd ∧
    (the_run enc compress cancel c (t + 1)).all_images =
      get_images_from_collection c ∧
    (the_run enc compress cancel c (t + 1)).finished = true ∧
    (∀ u, t + 1 ≤ u →
      the_run enc compress cancel c u = the_run enc compress cancel c (t + 1)) := by
  unfold the_run at hfin ⊢
  have hstep : run_from enc compress cancel (initJob (get_images_from_collection c) c) (t + 1) =
      do_end enc (run_from enc compress cancel (initJob (get_images_from_collection c) c) t) := by
    rw [run_from_succ, hfin]
    simp only [Bool.false_eq_true, if_false]
    rw [hc, do_one_cancel]
  refine ⟨hstep, ?_, ?_, ?_, ?_, ?_⟩
  · rw [hstep]
    rfl
  · rw [hstep]
    exact rename_files_snd _ _
  · rw [hstep]
    show (run_from enc compress cancel (initJob (get_images_from_collection c) c) t).all_images =
      get_images_from_collection c
    rw [run_all_images]
    rfl
  · rw [hstep]
    rfl
  · intro u hu
    have hdone : (run_from enc compress cancel (initJob (get_images_from_collection c) c)
        (t + 1)).finished = true := by
      rw [hstep]
      rfl
    exact run_from_stationary enc compress cancel _ (t + 1) hdone u hu

/-- Witness for cancellation: in the two-image witness run cancelled at the
start of tick 1, tick 2 has already finalized the run. -/
theorem cancellation_semantics_witness :
    (the_run "WebP" wCompress (fun i => i == 1) wContainer 2).finished = true :=
  (cancellation_semantics "WebP" wCompress (fun i => i == 1) wContainer 1
    (by decide) (by decide)).2.2.2.2.1

end BulkImg
